import Mathlib

/-!
Verification of the header-encoding core of `mail-codec-core`.

The development shallowly embeds `src/components/src/mime_tools.rs`
(parameter encoding, media-type building) and the declaration self-check of
`src/core/src/headers/header_macro.rs`.  The external collaborators that the
repository only consumes — the grammar predicates `is_token` /
`quote_if_needed`, the percent encoder `percent_encode_param_value`, the
header-name validator and the media-type parser — are not part of the
repository sources, so they are modelled from the specification.
-/

namespace MailCodec

/-- Transport profile (`core::grammar::MailType`): `Ascii` is the spec's
`PlainAscii`, `Internationalized` allows raw UTF-8. -/
inductive MailType where
  | Ascii
  | Internationalized
deriving DecidableEq, Repr

/-- Model of `std::borrow::Cow<str>`: `borrowed` means the function returned
its input unchanged, `owned` means a fresh string was produced. -/
inductive Cow where
  | borrowed : String → Cow
  | owned : String → Cow
deriving DecidableEq, Repr

/-- The string held by a `Cow`, either way. -/
def Cow.str : Cow → String
  | .borrowed s => s
  | .owned s => s

/-- `error::ComponentError` — the only variant the encoder uses. -/
inductive ComponentError where
  | InvalidToken : String → ComponentError
deriving DecidableEq, Repr

/-- Result of an encoding operation.  `err` is a recoverable returned error
(Rust `Err(..)`); `panic` is a fatal abort (`unreachable!` / failed
assertion), kept separate because the spec distinguishes the two. -/
inductive EncodeResult (α : Type) where
  | ok : α → EncodeResult α
  | err : ComponentError → EncodeResult α
  | panic : String → EncodeResult α
deriving DecidableEq, Repr

/-! ## Spec-modelled grammar oracle -/

/-- The `tspecials` of the token grammar (RFC 2045). -/
def tspecials : List Char := "()<>@,;:\\\"/[]?=".data

/-- A character usable in an unquoted token: printable ASCII that is not a
`tspecial` and not space. -/
def tokenChar (c : Char) : Bool :=
  33 ≤ c.toNat && c.toNat ≤ 126 && !(decide (c ∈ tspecials))

/-- Modelled from the spec: `core::grammar::is_token` — "is this a valid
token", a nonempty string of token characters. -/
def is_token (s : String) : Bool :=
  !(s.data.isEmpty) && s.data.all tokenChar

/-- A character representable inside a quoted string under the given
transport profile: printable ASCII and space always (quote and backslash via
escaping), raw non-ASCII only under `Internationalized`; control characters
(and DEL) never. -/
def quotable (tp : MailType) (c : Char) : Bool :=
  (32 ≤ c.toNat && c.toNat ≤ 126) ||
    (tp = MailType.Internationalized && 128 ≤ c.toNat)

/-- The transport profile a piece of text itself requires: `Ascii` when it is
pure ASCII, `Internationalized` otherwise. -/
def gotTpOf (s : String) : MailType :=
  if s.data.all (fun c => c.toNat ≤ 127) then MailType.Ascii
  else MailType.Internationalized

/-- Escape one character for a quoted string: quote and backslash get a
preceding backslash. -/
def escChar (c : Char) : List Char :=
  if c = '"' || c = '\\' then ['\\', c] else [c]

/-- Wrap text in quote marks, backslash-escaping quotes and backslashes. -/
def quoteStr (s : String) : String :=
  ⟨'"' :: (s.data.flatMap escChar) ++ ['"']⟩

/-- Outcome of the oracle's quoting decision: a representable form under a
resulting profile, or "not representable without percent-encoding". -/
inductive QuoteResult where
  | ok : MailType → Cow → QuoteResult
  | notRepresentable : QuoteResult
deriving DecidableEq, Repr

/-- Modelled from the spec: `codec::quoted_string::quote_if_needed` with the
`TokenCheck` quoting mode.  A valid token is returned raw (borrowed); text
whose characters are all quotable under the requested profile is returned
quoted (owned); anything else is not representable. -/
def quote_if_needed (value : String) (tp : MailType) : QuoteResult :=
  if is_token value then QuoteResult.ok (gotTpOf value) (Cow.borrowed value)
  else if value.data.all (quotable tp) then
    QuoteResult.ok (gotTpOf value) (Cow.owned (quoteStr value))
  else QuoteResult.notRepresentable

/-! ## Spec-modelled percent encoder -/

/-- RFC 2231/5987 `attr-char`: characters a percent-encoded parameter value
may carry unencoded (letters, digits and a few symbols). -/
def attrChar (c : Char) : Bool :=
  (65 ≤ c.toNat && c.toNat ≤ 90) || (97 ≤ c.toNat && c.toNat ≤ 122) ||
    (48 ≤ c.toNat && c.toNat ≤ 57) || decide (c ∈ "!#$&+-.^_`|~".data)

/-- Upper-case hexadecimal digit for `n < 16`. -/
def hexDigit (n : Nat) : Char :=
  "0123456789ABCDEF".data.getD n '0'

/-- The UTF-8 bytes of a unicode scalar value. -/
def utf8Bytes (n : Nat) : List Nat :=
  if n < 0x80 then [n]
  else if n < 0x800 then [0xC0 + n / 64, 0x80 + n % 64]
  else if n < 0x10000 then
    [0xE0 + n / 4096, 0x80 + (n / 64) % 64, 0x80 + n % 64]
  else
    [0xF0 + n / 262144, 0x80 + (n / 4096) % 64, 0x80 + (n / 64) % 64,
      0x80 + n % 64]

/-- Percent-encode one byte as `%XX`. -/
def pctByte (b : Nat) : List Char :=
  ['%', hexDigit (b / 16), hexDigit (b % 16)]

/-- The characters emitted for one input character: kept raw when it is an
`attr-char`, otherwise each UTF-8 byte percent-encoded. -/
def pctChunk (c : Char) : List Char :=
  if attrChar c then [c] else (utf8Bytes c.toNat).flatMap pctByte

/-- Percent-encode a whole string. -/
def pctEncode (s : String) : String :=
  ⟨s.data.flatMap pctChunk⟩

/-- Modelled from the spec: `codec::mime::percent_encode_param_value` —
returns the input unchanged (borrowed) when no character needs encoding, and
an owned percent-encoded string otherwise. -/
def percent_encode_param_value (value : String) : Cow :=
  if value.data.all attrChar then Cow.borrowed value
  else Cow.owned (pctEncode value)

/-! ## The parameter encoder (embedded from `mime_tools.rs`) -/

/-- Message of the `debug_assert!` at mime_tools.rs:40. -/
def assertMsg : String :=
  "assertion failed: !(tp==MailType::Ascii && got_tp==MailType::Internationalized)"

/-- Message of the `unreachable!` at mime_tools.rs:51. -/
def pctBugMsg : String :=
  "[BUG] program failed to decide if or if not percent encoding is needed"

/-- The `utf8''` charset/language tag of the extended-parameter syntax. -/
def utf8Tag : String := "utf8''"

/-- `create_encoded_mime_parameter` (mime_tools.rs:25-67), parameterized by
its two external collaborators (the quoting oracle and the percent encoder).
Returns the new buffer contents together with the outcome; on `err` and
`panic` the buffer is unchanged, faithful to the source where every `push`
happens after all failure points. -/
def create_encoded_mime_parameter_with
    (oracle : String → MailType → QuoteResult)
    (penc : String → Cow)
    (name value buf : String) (tp : MailType) :
    String × EncodeResult Unit :=
  if !(is_token name) then (buf, EncodeResult.err (ComponentError.InvalidToken name))
  else
    let step :=
      match oracle value tp with
      | QuoteResult.ok got_tp res =>
        if tp = MailType.Ascii && got_tp = MailType.Internationalized then
          EncodeResult.panic assertMsg
        else
          EncodeResult.ok (res.str, false)
      | QuoteResult.notRepresentable =>
        match penc value with
        | Cow.owned owned => EncodeResult.ok (owned, true)
        | Cow.borrowed _ => EncodeResult.panic pctBugMsg
    match step with
    | EncodeResult.ok (value, needed_encoding) =>
      ( buf ++ ";" ++ name ++ (if needed_encoding then "*" else "") ++ "=" ++
          (if needed_encoding then utf8Tag else "") ++ value,
        EncodeResult.ok () )
    | EncodeResult.err e => (buf, EncodeResult.err e)
    | EncodeResult.panic m => (buf, EncodeResult.panic m)

/-- `create_encoded_mime_parameter` with the repository's actual
collaborators (as modelled from the spec). -/
def create_encoded_mime_parameter (name value buf : String) (tp : MailType) :
    String × EncodeResult Unit :=
  create_encoded_mime_parameter_with quote_if_needed percent_encode_param_value
    name value buf tp

/-- `create_mime_parameters` (mime_tools.rs:16-23): encode the entries in
order, threading the output buffer, stopping at the first failure. -/
def create_mime_parameters (params : List (String × String)) (buf : String)
    (tp : MailType) : String × EncodeResult Unit :=
  match params with
  | [] => (buf, EncodeResult.ok ())
  | (name, value) :: rest =>
    match create_encoded_mime_parameter name value buf tp with
    | (buf2, EncodeResult.ok ()) => create_mime_parameters rest buf2 tp
    | (buf2, EncodeResult.err e) => (buf2, EncodeResult.err e)
    | (buf2, EncodeResult.panic m) => (buf2, EncodeResult.panic m)

/-- The wire segment a single successfully encoded parameter contributes. -/
def segmentOf (tp : MailType) (name value : String) : String :=
  match quote_if_needed value tp with
  | QuoteResult.ok _ res => ";" ++ name ++ "=" ++ res.str
  | QuoteResult.notRepresentable => ";" ++ name ++ "*=" ++ utf8Tag ++ pctEncode value

example :
    create_mime_parameters [("time", "unknown"), ("brain", "missing")] ""
      MailType.Ascii = (";time=unknown;brain=missing", EncodeResult.ok ()) := by
  decide

example :
    create_mime_parameters [("time", "unknown think"), ("brain", "missing")] ""
      MailType.Ascii =
      (";time=\"unknown think\";brain=missing", EncodeResult.ok ()) := by
  decide

example :
    create_mime_parameters [("time", "unknown ü\""), ("brain", "missing")] ""
      MailType.Internationalized =
      (";time=\"unknown ü\\\"\";brain=missing", EncodeResult.ok ()) := by
  decide

example :
    create_mime_parameters [("time", "unknown ü\""), ("brain", "missing")] ""
      MailType.Ascii =
      (";time*=utf8''unknown%20%C3%BC%22;brain=missing", EncodeResult.ok ()) := by
  decide

example :
    create_mime_parameters [("filename", "u\x01\x02ps")] ""
      MailType.Internationalized =
      (";filename*=utf8''u%01%02ps", EncodeResult.ok ()) := by
  decide

/-! ## Helper lemmas about the grammar model -/

/-- Whether the oracle finds the value representable under a profile. -/
def representable (tp : MailType) (value : String) : Bool :=
  match quote_if_needed value tp with
  | QuoteResult.ok _ _ => true
  | QuoteResult.notRepresentable => false

theorem tokenChar_range {c : Char} (h : tokenChar c = true) :
    33 ≤ c.toNat ∧ c.toNat ≤ 126 := by
  simp only [tokenChar, Bool.and_eq_true, decide_eq_true_eq] at h
  exact ⟨h.1.1, h.1.2⟩

theorem attrChar_range {c : Char} (h : attrChar c = true) :
    33 ≤ c.toNat ∧ c.toNat ≤ 126 := by
  simp only [attrChar, Bool.or_eq_true, Bool.and_eq_true, decide_eq_true_eq] at h
  rcases h with ((⟨h1, h2⟩ | ⟨h1, h2⟩) | ⟨h1, h2⟩) | h
  · omega
  · omega
  · omega
  · fin_cases h <;> decide

theorem quotable_of_attrChar {c : Char} (tp : MailType) (h : attrChar c = true) :
    quotable tp c = true := by
  have := attrChar_range h
  simp only [quotable, Bool.or_eq_true, Bool.and_eq_true, decide_eq_true_eq]
  left
  omega

theorem quotable_ascii_le {c : Char} (h : quotable MailType.Ascii c = true) :
    c.toNat ≤ 126 := by
  simp only [quotable, Bool.or_eq_true, Bool.and_eq_true, decide_eq_true_eq] at h
  rcases h with ⟨_, h⟩ | ⟨h, _⟩
  · exact h
  · exact absurd h (by decide)

theorem gotTpOf_eq_ascii {s : String}
    (h : ∀ c ∈ s.data, c.toNat ≤ 127) : gotTpOf s = MailType.Ascii := by
  simp only [gotTpOf, List.all_eq_true, decide_eq_true_eq]
  rw [if_pos]
  exact h

theorem is_token_all {s : String} (h : is_token s = true) :
    ∀ c ∈ s.data, tokenChar c = true := by
  simp only [is_token, Bool.and_eq_true, List.all_eq_true] at h
  exact h.2

theorem is_token_ne_nil {s : String} (h : is_token s = true) : s.data ≠ [] := by
  simp only [is_token, Bool.and_eq_true, List.isEmpty_iff, Bool.not_eq_true'] at h
  simpa using h.1

/-- Under the `Ascii` profile a successful quoting decision never reports the
`Internationalized` profile. -/
theorem quote_ascii_got {value : String} {got : MailType} {res : Cow}
    (h : quote_if_needed value MailType.Ascii = QuoteResult.ok got res) :
    got = MailType.Ascii := by
  unfold quote_if_needed at h
  split_ifs at h with h1 h2
  · have := is_token_all h1
    have hg : gotTpOf value = MailType.Ascii := by
      refine gotTpOf_eq_ascii fun c hc => ?_
      have := tokenChar_range (this c hc)
      omega
    rw [hg] at h
    exact (QuoteResult.ok.inj h).1.symm
  · simp only [List.all_eq_true] at h2
    have hg : gotTpOf value = MailType.Ascii := by
      refine gotTpOf_eq_ascii fun c hc => ?_
      have := quotable_ascii_le (h2 c hc)
      omega
    rw [hg] at h
    exact (QuoteResult.ok.inj h).1.symm

/-- When the oracle rejects a value, some character of it is not an
`attr-char`, so the percent encoder genuinely encodes. -/
theorem pct_owned_of_notRepr {value : String} {tp : MailType}
    (h : quote_if_needed value tp = QuoteResult.notRepresentable) :
    percent_encode_param_value value = Cow.owned (pctEncode value) := by
  unfold quote_if_needed at h
  split_ifs at h with h1 h2
  have : ¬ value.data.all attrChar = true := by
    intro hall
    apply h2
    simp only [List.all_eq_true] at hall ⊢
    exact fun c hc => quotable_of_attrChar tp (hall c hc)
  unfold percent_encode_param_value
  rw [if_neg this]

/-- A valid parameter name makes `create_encoded_mime_parameter` append
exactly the segment described by `segmentOf` and succeed. -/
theorem encode_param_ok (tp : MailType) (name value buf : String)
    (hn : is_token name = true) :
    create_encoded_mime_parameter name value buf tp
      = (buf ++ segmentOf tp name value, EncodeResult.ok ()) := by
  unfold create_encoded_mime_parameter create_encoded_mime_parameter_with segmentOf
  simp only [hn, Bool.not_true, Bool.false_eq_true, if_false]
  cases hq : quote_if_needed value tp with
  | ok got res =>
    have hguard : (decide (tp = MailType.Ascii) &&
        decide (got = MailType.Internationalized)) = false := by
      cases tp with
      | Ascii =>
        have := quote_ascii_got hq
        subst this
        decide
      | Internationalized => rfl
    simp only [hq, hguard, Bool.false_eq_true, if_false, if_neg]
    simp [String.append_assoc]
  | notRepresentable =>
    rw [pct_owned_of_notRepr hq]
    simp only [hq]
    simp [String.append_assoc]

/-- A name that is not a token makes `create_encoded_mime_parameter` fail
with `InvalidToken name` and leave the buffer unchanged. -/
theorem encode_param_err (tp : MailType) (name value buf : String)
    (hn : is_token name = false) :
    create_encoded_mime_parameter name value buf tp
      = (buf, EncodeResult.err (ComponentError.InvalidToken name)) := by
  unfold create_encoded_mime_parameter create_encoded_mime_parameter_with
  simp [hn]

/-! ## Claims C1, C2, C5, C6 -/

/-- C1: a parameter value that is not representable under `PlainAscii` but is
representable under `Internationalized` is appended as the quoted segment
`;name="…"` under `Internationalized`, and as the percent-encoded extended
segment `;name*=utf8''…` under `PlainAscii`. -/
theorem mime_param_profile_split (name value buf : String)
    (hn : is_token name = true)
    (hInt : representable MailType.Internationalized value = true)
    (hAsc : representable MailType.Ascii value = false) :
    create_encoded_mime_parameter name value buf MailType.Internationalized
      = (buf ++ ";" ++ name ++ "=" ++ quoteStr value, EncodeResult.ok ()) ∧
    create_encoded_mime_parameter name value buf MailType.Ascii
      = (buf ++ ";" ++ name ++ "*=" ++ utf8Tag ++ pctEncode value,
          EncodeResult.ok ()) := by
  have hAscQ : quote_if_needed value MailType.Ascii
      = QuoteResult.notRepresentable := by
    unfold representable at hAsc
    cases hq : quote_if_needed value MailType.Ascii with
    | ok got res => rw [hq] at hAsc; cases hAsc
    | notRepresentable => rfl
  have hnotTok : is_token value = false := by
    by_contra hne
    have htok : is_token value = true := by
      cases h : is_token value
      · exact absurd h hne
      · rfl
    unfold quote_if_needed at hAscQ
    rw [if_pos htok] at hAscQ
    cases hAscQ
  have hIntQ : quote_if_needed value MailType.Internationalized
      = QuoteResult.ok (gotTpOf value) (Cow.owned (quoteStr value)) := by
    unfold representable at hInt
    unfold quote_if_needed at hInt ⊢
    rw [if_neg (by simp [hnotTok])] at hInt ⊢
    by_cases h2 : value.data.all (quotable MailType.Internationalized) = true
    · rw [if_pos h2]
    · rw [if_neg h2] at hInt
      cases hInt
  constructor
  · rw [encode_param_ok _ _ _ _ hn]
    unfold segmentOf
    rw [hIntQ]
    simp [Cow.str, String.append_assoc]
  · rw [encode_param_ok _ _ _ _ hn]
    unfold segmentOf
    rw [hAscQ]
    simp [String.append_assoc]

/-- C1 witness: the spec's own example, `time` / `unknown ü"`. -/
theorem mime_param_profile_split_witness :
    is_token "time" = true ∧
    representable MailType.Internationalized "unknown ü\"" = true ∧
    representable MailType.Ascii "unknown ü\"" = false ∧
    create_encoded_mime_parameter "time" "unknown ü\"" ""
        MailType.Internationalized
      = (";time=\"unknown ü\\\"\"", EncodeResult.ok ()) ∧
    create_encoded_mime_parameter "time" "unknown ü\"" "" MailType.Ascii
      = (";time*=utf8''unknown%20%C3%BC%22", EncodeResult.ok ()) := by
  refine ⟨by decide, by decide, by decide, ?_, ?_⟩
  · exact (mime_param_profile_split "time" "unknown ü\"" "" (by decide)
      (by decide) (by decide)).1
  · exact (mime_param_profile_split "time" "unknown ü\"" "" (by decide)
      (by decide) (by decide)).2

/-- C2: when the name is a valid token and the value itself is a valid token
(no character requires quoting or encoding under either profile, and the
value is nonempty), the appended bytes are exactly `;name=value`: no quote
marks, no `*` marker, no `utf8''` prefix. -/
theorem mime_param_raw (name value buf : String) (tp : MailType)
    (hn : is_token name = true) (hv : is_token value = true) :
    create_encoded_mime_parameter name value buf tp
      = (buf ++ ";" ++ name ++ "=" ++ value, EncodeResult.ok ()) := by
  rw [encode_param_ok _ _ _ _ hn]
  unfold segmentOf quote_if_needed
  rw [if_pos hv]
  simp [Cow.str, String.append_assoc]

/-- C2 witness: `;time=unknown` from the source's `mime_param_simple` test. -/
theorem mime_param_raw_witness :
    is_token "time" = true ∧ is_token "unknown" = true ∧
    create_encoded_mime_parameter "time" "unknown" "" MailType.Ascii
      = (";time=unknown", EncodeResult.ok ()) := by
  exact ⟨by decide, by decide,
    mime_param_raw "time" "unknown" "" MailType.Ascii (by decide) (by decide)⟩

/-- C5: whatever the collaborators do, if the quoting oracle reports a
successful `Internationalized`-only result while the caller requested the
`Ascii` profile, `create_encoded_mime_parameter` aborts fatally with the
assertion message — it does not return a recoverable error. -/
theorem oracle_profile_mismatch_fatal
    (oracle : String → MailType → QuoteResult) (penc : String → Cow)
    (name value buf : String) (res : Cow)
    (hn : is_token name = true)
    (ho : oracle value MailType.Ascii
      = QuoteResult.ok MailType.Internationalized res) :
    create_encoded_mime_parameter_with oracle penc name value buf
        MailType.Ascii
      = (buf, EncodeResult.panic assertMsg) := by
  unfold create_encoded_mime_parameter_with
  simp [hn, ho]

/-- C5 witness: a constant oracle reporting an `Internationalized`-only
success under `Ascii` is answered by the fatal assertion abort. -/
theorem oracle_profile_mismatch_fatal_witness :
    is_token "a" = true ∧
    (fun (_ : String) (_ : MailType) =>
        QuoteResult.ok MailType.Internationalized (Cow.borrowed "x")) "x"
        MailType.Ascii
      = QuoteResult.ok MailType.Internationalized (Cow.borrowed "x") ∧
    create_encoded_mime_parameter_with
        (fun _ _ => QuoteResult.ok MailType.Internationalized (Cow.borrowed "x"))
        (fun s => Cow.borrowed s) "a" "x" "" MailType.Ascii
      = ("", EncodeResult.panic assertMsg) := by
  exact ⟨by decide, rfl,
    oracle_profile_mismatch_fatal _ _ "a" "x" "" (Cow.borrowed "x")
      (by decide) rfl⟩

/-- C6: whenever the oracle rejects the value and the percent encoder
returns its input unchanged (borrowed), `create_encoded_mime_parameter`
aborts fatally with the `unreachable!` message instead of returning an error
or accepting the value. -/
theorem percent_noop_fatal
    (oracle : String → MailType → QuoteResult) (penc : String → Cow)
    (name value buf : String) (tp : MailType)
    (hn : is_token name = true)
    (ho : oracle value tp = QuoteResult.notRepresentable)
    (hp : penc value = Cow.borrowed value) :
    create_encoded_mime_parameter_with oracle penc name value buf tp
      = (buf, EncodeResult.panic pctBugMsg) := by
  unfold create_encoded_mime_parameter_with
  simp [hn, ho, hp]

/-- C6 witness: a no-op percent encoder combined with a rejecting oracle
triggers the fatal `unreachable!` abort. -/
theorem percent_noop_fatal_witness :
    is_token "a" = true ∧
    (fun (_ : String) (_ : MailType) => QuoteResult.notRepresentable) "x"
        MailType.Ascii = QuoteResult.notRepresentable ∧
    (fun (s : String) => Cow.borrowed s) "x" = Cow.borrowed "x" ∧
    create_encoded_mime_parameter_with
        (fun _ _ => QuoteResult.notRepresentable)
        (fun s => Cow.borrowed s) "a" "x" "" MailType.Ascii
      = ("", EncodeResult.panic pctBugMsg) := by
  exact ⟨by decide, rfl, rfl,
    percent_noop_fatal _ _ "a" "x" "" MailType.Ascii (by decide) rfl rfl⟩

/-! ## The parameter loop: order, concatenation, failure framing -/

/-- Concatenation of wire segments, in order. -/
def sjoin : List String → String
  | [] => ""
  | s :: rest => s ++ sjoin rest

theorem tokenChar_ne_semi {c : Char} (h : tokenChar c = true) : c ≠ ';' := by
  intro he
  subst he
  exact absurd h (by decide)

theorem attrChar_ne_semi {c : Char} (h : attrChar c = true) : c ≠ ';' := by
  intro he
  subst he
  exact absurd h (by decide)

theorem hexDigit_ne_semi (n : Nat) : hexDigit n ≠ ';' := by
  unfold hexDigit
  rcases Nat.lt_or_ge n 16 with h | h
  · interval_cases n <;> decide
  · rw [List.getD_eq_default]
    · decide
    · simpa using h

theorem getLast?_some_of_ne_nil {α : Type} :
    ∀ {l : List α}, l ≠ [] → ∃ a, l.getLast? = some a ∧ a ∈ l
  | [], h => absurd rfl h
  | [a], _ => ⟨a, rfl, by simp⟩
  | a :: b :: t, _ => by
    obtain ⟨x, hx, hmem⟩ := getLast?_some_of_ne_nil (show b :: t ≠ [] by simp)
    exact ⟨x, by rw [List.getLast?_cons_cons]; exact hx, List.mem_cons_of_mem _ hmem⟩

theorem getLast?_append_right {α : Type} {l₁ l₂ : List α} (h : l₂ ≠ []) :
    (l₁ ++ l₂).getLast? = l₂.getLast? := by
  rw [List.getLast?_append]
  obtain ⟨a, ha, _⟩ := getLast?_some_of_ne_nil h
  rw [ha]
  rfl

/-- The last character of `a ++ v` is a character of `v` when `v` is
nonempty. -/
theorem str_getLast_ne (a v : String) (hne : v.data ≠ [])
    (hv : ∀ c ∈ v.data, c ≠ ';') : (a ++ v).data.getLast? ≠ some ';' := by
  rw [String.data_append, getLast?_append_right hne]
  intro h
  exact hv _ (List.mem_of_getLast?_eq_some h) rfl

theorem utf8Bytes_ne_nil (n : Nat) : utf8Bytes n ≠ [] := by
  unfold utf8Bytes
  split_ifs <;> simp

theorem pctByte_ne_nil (b : Nat) : pctByte b ≠ [] := by
  simp [pctByte]

theorem pctChunk_ne_nil (c : Char) : pctChunk c ≠ [] := by
  unfold pctChunk
  split_ifs with h
  · simp
  · obtain ⟨b, rest, hb⟩ : ∃ b rest, utf8Bytes c.toNat = b :: rest := by
      cases hu : utf8Bytes c.toNat with
      | nil => exact absurd hu (utf8Bytes_ne_nil _)
      | cons b rest => exact ⟨b, rest, rfl⟩
    rw [hb]
    simp only [List.flatMap_cons]
    exact List.append_ne_nil_of_left_ne_nil (pctByte_ne_nil b) _

theorem pctChunk_no_semi {d c : Char} (h : d ∈ pctChunk c) : d ≠ ';' := by
  unfold pctChunk at h
  split_ifs at h with ha
  · rw [List.mem_singleton] at h
    subst h
    exact attrChar_ne_semi ha
  · rw [List.mem_flatMap] at h
    obtain ⟨b, _, hd⟩ := h
    simp only [pctByte, List.mem_cons, List.mem_singleton] at hd
    rcases hd with rfl | rfl | rfl | h
    · decide
    · exact hexDigit_ne_semi _
    · exact hexDigit_ne_semi _
    · cases h

theorem pctEncode_ne_nil {value : String} (h : value.data ≠ []) :
    (pctEncode value).data ≠ [] := by
  unfold pctEncode
  cases hv : value.data with
  | nil => exact absurd hv h
  | cons c rest =>
    show (c :: rest).flatMap pctChunk ≠ []
    simp only [List.flatMap_cons]
    exact List.append_ne_nil_of_left_ne_nil (pctChunk_ne_nil c) _

theorem pctEncode_no_semi {value : String} {d : Char}
    (h : d ∈ (pctEncode value).data) : d ≠ ';' := by
  unfold pctEncode at h
  rw [show (String.mk (value.data.flatMap pctChunk)).data
      = value.data.flatMap pctChunk from rfl, List.mem_flatMap] at h
  obtain ⟨c, _, hd⟩ := h
  exact pctChunk_no_semi hd

/-- Every successfully produced segment starts with the `;` separator. -/
theorem segment_starts_semi (tp : MailType) (name value : String) :
    ∃ s, segmentOf tp name value = ";" ++ s := by
  unfold segmentOf
  cases hq : quote_if_needed value tp with
  | ok got res =>
    exact ⟨name ++ "=" ++ res.str, by simp [String.append_assoc]⟩
  | notRepresentable =>
    exact ⟨name ++ "*=" ++ utf8Tag ++ pctEncode value, by
      simp [String.append_assoc]⟩

/-- No successfully produced segment ends with the `;` separator. -/
theorem segment_no_trailing_semi (tp : MailType) (name value : String) :
    (segmentOf tp name value).data.getLast? ≠ some ';' := by
  unfold segmentOf
  by_cases htok : is_token value = true
  · rw [show quote_if_needed value tp
        = QuoteResult.ok (gotTpOf value) (Cow.borrowed value) from by
      unfold quote_if_needed; rw [if_pos htok]]
    exact str_getLast_ne (";" ++ name ++ "=") value (is_token_ne_nil htok)
      (fun c hc => tokenChar_ne_semi (is_token_all htok c hc))
  · unfold quote_if_needed
    rw [if_neg (by simpa using htok)]
    by_cases hq : value.data.all (quotable tp) = true
    · rw [if_pos hq]
      show ((";" ++ name ++ "=") ++ quoteStr value).data.getLast? ≠ some ';'
      rw [String.data_append,
        getLast?_append_right (show (quoteStr value).data ≠ [] by
          show ('"' :: (value.data.flatMap escChar ++ ['"'])) ≠ []
          simp)]
      rw [show (quoteStr value).data
          = ('"' :: value.data.flatMap escChar) ++ ['"'] from rfl,
        List.getLast?_concat]
      decide
    · rw [if_neg hq]
      have hvne : value.data ≠ [] := by
        intro hnil
        exact hq (by rw [hnil]; rfl)
      exact str_getLast_ne (";" ++ name ++ "*=" ++ utf8Tag) (pctEncode value)
        (pctEncode_ne_nil hvne) (fun c hc => pctEncode_no_semi hc)

/-- Success of the whole loop, with the exact concatenated output. -/
theorem mime_params_ok (tp : MailType) :
    ∀ (params : List (String × String)) (buf : String),
    (∀ p ∈ params, is_token p.1 = true) →
    create_mime_parameters params buf tp
      = (buf ++ sjoin (params.map fun p => segmentOf tp p.1 p.2),
          EncodeResult.ok ()) := by
  intro params
  induction params with
  | nil =>
    intro buf _
    simp [create_mime_parameters, sjoin]
  | cons p rest ih =>
    intro buf h
    obtain ⟨name, value⟩ := p
    have h1 : is_token name = true := h (name, value) (List.mem_cons_self _ _)
    have hrest : ∀ q ∈ rest, is_token q.1 = true :=
      fun q hq => h q (List.mem_cons_of_mem _ hq)
    rw [show create_mime_parameters ((name, value) :: rest) buf tp
        = create_mime_parameters rest (buf ++ segmentOf tp name value) tp from by
      simp only [create_mime_parameters, encode_param_ok tp name value buf h1]]
    rw [ih _ hrest]
    simp [sjoin, String.append_assoc]

/-- Failure of the whole loop at the first non-token name: exactly the
segments of the earlier entries were appended. -/
theorem mime_params_err (tp : MailType) :
    ∀ (pre : List (String × String)) (name value : String)
    (post : List (String × String)) (buf : String),
    (∀ p ∈ pre, is_token p.1 = true) → is_token name = false →
    create_mime_parameters (pre ++ (name, value) :: post) buf tp
      = (buf ++ sjoin (pre.map fun p => segmentOf tp p.1 p.2),
          EncodeResult.err (ComponentError.InvalidToken name)) := by
  intro pre
  induction pre with
  | nil =>
    intro name value post buf _ hn
    rw [List.nil_append]
    rw [show create_mime_parameters ((name, value) :: post) buf tp
        = (buf, EncodeResult.err (ComponentError.InvalidToken name)) from by
      simp only [create_mime_parameters, encode_param_err tp name value buf hn]]
    simp [sjoin]
  | cons p rest ih =>
    intro name value post buf h hn
    obtain ⟨pn, pv⟩ := p
    have h1 : is_token pn = true := h (pn, pv) (List.mem_cons_self _ _)
    have hrest : ∀ q ∈ rest, is_token q.1 = true :=
      fun q hq => h q (List.mem_cons_of_mem _ hq)
    rw [List.cons_append]
    rw [show create_mime_parameters ((pn, pv) :: (rest ++ (name, value) :: post))
          buf tp
        = create_mime_parameters (rest ++ (name, value) :: post)
            (buf ++ segmentOf tp pn pv) tp from by
      simp only [create_mime_parameters, encode_param_ok tp pn pv buf h1]]
    rw [ih name value post _ hrest hn]
    simp [sjoin, String.append_assoc]

/-- A successful loop implies every name was a valid token. -/
theorem mime_params_ok_names (tp : MailType) :
    ∀ (params : List (String × String)) (buf : String),
    (create_mime_parameters params buf tp).2 = EncodeResult.ok () →
    ∀ p ∈ params, is_token p.1 = true := by
  intro params
  induction params with
  | nil =>
    intro buf _ p hp
    cases hp
  | cons p rest ih =>
    intro buf h q hq
    obtain ⟨name, value⟩ := p
    cases hn : is_token name with
    | false =>
      rw [show create_mime_parameters ((name, value) :: rest) buf tp
          = (buf, EncodeResult.err (ComponentError.InvalidToken name)) from by
        simp only [create_mime_parameters, encode_param_err tp name value buf hn]]
          at h
      cases h
    | true =>
      rw [show create_mime_parameters ((name, value) :: rest) buf tp
          = create_mime_parameters rest (buf ++ segmentOf tp name value) tp from by
        simp only [create_mime_parameters, encode_param_ok tp name value buf hn]]
          at h
      rcases List.mem_cons.mp hq with rfl | hq2
      · exact hn
      · exact ih _ h q hq2

/-- The buffer only ever grows: its prior contents stay an exact prefix. -/
theorem mime_params_grow (tp : MailType) :
    ∀ (params : List (String × String)) (buf : String),
    ∃ s, (create_mime_parameters params buf tp).1 = buf ++ s := by
  intro params
  induction params with
  | nil =>
    intro buf
    exact ⟨"", by simp [create_mime_parameters]⟩
  | cons p rest ih =>
    intro buf
    obtain ⟨name, value⟩ := p
    cases hn : is_token name with
    | false =>
      refine ⟨"", ?_⟩
      rw [show create_mime_parameters ((name, value) :: rest) buf tp
          = (buf, EncodeResult.err (ComponentError.InvalidToken name)) from by
        simp only [create_mime_parameters, encode_param_err tp name value buf hn]]
      simp
    | true =>
      obtain ⟨s, hs⟩ := ih (buf ++ segmentOf tp name value)
      refine ⟨segmentOf tp name value ++ s, ?_⟩
      rw [show create_mime_parameters ((name, value) :: rest) buf tp
          = create_mime_parameters rest (buf ++ segmentOf tp name value) tp from by
        simp only [create_mime_parameters, encode_param_ok tp name value buf hn]]
      rw [hs, String.append_assoc]

/-- The concatenation of nonempty segments none of which ends in `;` does
not end in `;` either. -/
theorem sjoin_no_trailing_semi :
    ∀ (l : List String), l ≠ [] →
    (∀ s ∈ l, s.data ≠ [] ∧ s.data.getLast? ≠ some ';') →
    (sjoin l).data.getLast? ≠ some ';' := by
  intro l
  induction l with
  | nil => intro h; exact absurd rfl h
  | cons s rest ih =>
    intro _ h
    cases rest with
    | nil =>
      show ((s ++ sjoin []).data).getLast? ≠ some ';'
      rw [show sjoin [] = "" from rfl, String.append_empty]
      exact (h s (List.mem_cons_self _ _)).2
    | cons t r =>
      show ((s ++ sjoin (t :: r)).data).getLast? ≠ some ';'
      have hne : (sjoin (t :: r)).data ≠ [] := by
        show (t ++ sjoin r).data ≠ []
        rw [String.data_append]
        exact List.append_ne_nil_of_left_ne_nil (h t (by simp)).1 _
      rw [String.data_append, getLast?_append_right hne]
      exact ih (by simp) (fun u hu => h u (List.mem_cons_of_mem _ hu))

/-! ## Claims C3, C4, C10 -/

/-- C3: a successful `create_mime_parameters` call appends exactly the
concatenation, in input order, of one segment per entry (duplicates
included); each segment begins with `;`, and the appended fragment carries
no trailing separator. -/
theorem mime_params_ordered_concat (params : List (String × String))
    (buf out : String) (tp : MailType)
    (h : create_mime_parameters params buf tp = (out, EncodeResult.ok ())) :
    out = buf ++ sjoin (params.map fun p => segmentOf tp p.1 p.2) ∧
    (∀ p ∈ params, ∃ s, segmentOf tp p.1 p.2 = ";" ++ s) ∧
    (params ≠ [] →
      (sjoin (params.map fun p => segmentOf tp p.1 p.2)).data.getLast?
        ≠ some ';') := by
  have hnames : ∀ p ∈ params, is_token p.1 = true :=
    mime_params_ok_names tp params buf (by rw [h])
  have hok := mime_params_ok tp params buf hnames
  refine ⟨?_, ?_, ?_⟩
  · rw [h] at hok
    exact (Prod.mk.injEq _ _ _ _).mp hok |>.1
  · exact fun p _ => segment_starts_semi tp p.1 p.2
  · intro hne
    refine sjoin_no_trailing_semi _ (by simpa using hne) ?_
    intro s hs
    rw [List.mem_map] at hs
    obtain ⟨p, _, rfl⟩ := hs
    constructor
    · obtain ⟨t, ht⟩ := segment_starts_semi tp p.1 p.2
      rw [ht, String.data_append]
      simp
    · exact segment_no_trailing_semi tp p.1 p.2

/-- C3 witness at the source's `mime_param_quoted` test input. -/
theorem mime_params_ordered_concat_witness :
    create_mime_parameters [("time", "unknown think"), ("brain", "missing")]
        "" MailType.Ascii
      = (";time=\"unknown think\";brain=missing", EncodeResult.ok ()) ∧
    ((";time=\"unknown think\";brain=missing" : String)
      = "" ++ sjoin ([("time", "unknown think"), ("brain", "missing")].map
          fun p => segmentOf MailType.Ascii p.1 p.2) ∧
    (∀ p ∈ [("time", "unknown think"), ("brain", "missing")],
      ∃ s, segmentOf MailType.Ascii p.1 p.2 = ";" ++ s) ∧
    (([("time", "unknown think"), ("brain", "missing")]
        : List (String × String)) ≠ [] →
      (sjoin ([("time", "unknown think"), ("brain", "missing")].map
          fun p => segmentOf MailType.Ascii p.1 p.2)).data.getLast?
        ≠ some ';')) := by
  refine ⟨by decide, ?_⟩
  exact mime_params_ordered_concat _ "" _ MailType.Ascii (by decide)

/-- C4: a non-token parameter name makes the single-parameter encoder return
`InvalidToken` with the offending name and the buffer untouched, and makes
the whole `create_mime_parameters` call fail with that error having emitted
only the segments of the entries before it. -/
theorem mime_param_invalid_name (tp : MailType)
    (pre post : List (String × String)) (name value buf : String)
    (hpre : ∀ p ∈ pre, is_token p.1 = true) (hn : is_token name = false) :
    create_encoded_mime_parameter name value buf tp
      = (buf, EncodeResult.err (ComponentError.InvalidToken name)) ∧
    create_mime_parameters (pre ++ (name, value) :: post) buf tp
      = (buf ++ sjoin (pre.map fun p => segmentOf tp p.1 p.2),
          EncodeResult.err (ComponentError.InvalidToken name)) :=
  ⟨encode_param_err tp name value buf hn,
    mime_params_err tp pre name value post buf hpre hn⟩

/-- C4 witness: the name `b d` (contains a space) is rejected; the earlier
entry's segment stays, the later entry is never encoded. -/
theorem mime_param_invalid_name_witness :
    (∀ p ∈ ([("a", "1")] : List (String × String)), is_token p.1 = true) ∧
    is_token "b d" = false ∧
    create_encoded_mime_parameter "b d" "2" "X" MailType.Ascii
      = ("X", EncodeResult.err (ComponentError.InvalidToken "b d")) ∧
    create_mime_parameters [("a", "1"), ("b d", "2"), ("c", "3")] "X"
        MailType.Ascii
      = ("X" ++ sjoin ([("a", "1")].map
            fun p => segmentOf MailType.Ascii p.1 p.2),
          EncodeResult.err (ComponentError.InvalidToken "b d")) := by
  refine ⟨by decide, by decide, ?_, ?_⟩
  · exact (mime_param_invalid_name MailType.Ascii [("a", "1")] [("c", "3")]
      "b d" "2" "X" (by decide) (by decide)).1
  · exact (mime_param_invalid_name MailType.Ascii [("a", "1")] [("c", "3")]
      "b d" "2" "X" (by decide) (by decide)).2

/-- C10: whatever the outcome, the prior buffer contents are an exact prefix
of the final contents; and when the k-th entry's name is the first non-token
name, the final contents are exactly the prior contents followed by the
segments of the first k-1 entries. -/
theorem mime_params_buffer_frame (params : List (String × String))
    (buf : String) (tp : MailType) :
    (∃ s, (create_mime_parameters params buf tp).1 = buf ++ s) ∧
    (∀ pre name value post,
      params = pre ++ (name, value) :: post →
      (∀ p ∈ pre, is_token p.1 = true) →
      is_token name = false →
      create_mime_parameters params buf tp
        = (buf ++ sjoin (pre.map fun p => segmentOf tp p.1 p.2),
            EncodeResult.err (ComponentError.InvalidToken name))) := by
  constructor
  · exact mime_params_grow tp params buf
  · intro pre name value post hEq hpre hn
    subst hEq
    exact mime_params_err tp pre name value post buf hpre hn

/-- C10 witness: prior contents `X;q=p` survive as a prefix, and the failed
call leaves exactly the first entry's segment appended. -/
theorem mime_params_buffer_frame_witness :
    (∃ s, (create_mime_parameters [("a", "1"), ("b d", "2"), ("c", "3")]
        "X;q=p" MailType.Ascii).1 = "X;q=p" ++ s) ∧
    create_mime_parameters [("a", "1"), ("b d", "2"), ("c", "3")] "X;q=p"
        MailType.Ascii
      = ("X;q=p" ++ sjoin ([("a", "1")].map
            fun p => segmentOf MailType.Ascii p.1 p.2),
          EncodeResult.err (ComponentError.InvalidToken "b d")) := by
  refine ⟨(mime_params_buffer_frame _ "X;q=p" MailType.Ascii).1, ?_⟩
  exact (mime_params_buffer_frame _ "X;q=p" MailType.Ascii).2 [("a", "1")]
    "b d" "2" [("c", "3")] rfl (by decide) (by decide)

/-! ## The media-type builder and its parser

`create_mime` re-parses the text it assembled (`string.parse::<mime::Mime>()`
at mime_tools.rs:81).  The parser belongs to the external `mime` crate, so it
is modelled from the spec as a grammar-faithful media-type parser that
inverts the three emission forms (raw token, quoted string, RFC 2231
extended percent-encoded value). -/

/-- A parsed media-type value: type, subtype and parameter list. -/
structure Mime where
  ty : String
  subty : String
  params : List (String × String)
deriving DecidableEq, Repr

/-- Value of an upper-case hexadecimal digit. -/
def hexVal (c : Char) : Option Nat :=
  if 48 ≤ c.toNat ∧ c.toNat ≤ 57 then some (c.toNat - 48)
  else if 65 ≤ c.toNat ∧ c.toNat ≤ 70 then some (c.toNat - 55)
  else none

/-- Scan the inside of a quoted string: unescape backslash pairs, stop at the
closing quote, and return the value with the unconsumed remainder.  The flag
records whether the previous character was an unconsumed backslash. -/
def scanQuoted : Bool → List Char → Option (List Char × List Char)
  | _, [] => none
  | false, c :: rest =>
    if c = '"' then some ([], rest)
    else if c = '\\' then scanQuoted true rest
    else (scanQuoted false rest).map (fun p => (c :: p.1, p.2))
  | true, c :: rest => (scanQuoted false rest).map (fun p => (c :: p.1, p.2))

/-- Turn a percent-encoded character run into its byte sequence: `%XX`
becomes the byte `XX`, anything else must be a plain ASCII character.  The
state holds the hex digits of a partially read escape. -/
def pctBytes : Option (Option Nat) → List Char → Option (List Nat)
  | none, [] => some []
  | some _, [] => none
  | none, c :: rest =>
    if c = '%' then pctBytes (some none) rest
    else if c.toNat < 128 then
      (pctBytes none rest).map (fun bs => c.toNat :: bs)
    else none
  | some none, c :: rest =>
    match hexVal c with
    | some a => pctBytes (some (some a)) rest
    | none => none
  | some (some a), c :: rest =>
    match hexVal c with
    | some b => (pctBytes none rest).map (fun bs => (16 * a + b) :: bs)
    | none => none

/-- Decode a UTF-8 byte sequence back into characters.  The first argument
counts the continuation bytes still expected, the second accumulates the
scalar value being decoded. -/
def utf8Decode : Nat → Nat → List Nat → Option (List Char)
  | 0, _, [] => some []
  | _ + 1, _, [] => none
  | 0, _, b :: rest =>
    if b < 0x80 then (utf8Decode 0 0 rest).map (fun cs => Char.ofNat b :: cs)
    else if b < 0xC0 then none
    else if b < 0xE0 then utf8Decode 1 (b - 0xC0) rest
    else if b < 0xF0 then utf8Decode 2 (b - 0xE0) rest
    else if b < 0xF8 then utf8Decode 3 (b - 0xF0) rest
    else none
  | 1, acc, b :: rest =>
    if 0x80 ≤ b ∧ b < 0xC0 then
      (utf8Decode 0 0 rest).map (fun cs => Char.ofNat (acc * 64 + (b - 0x80)) :: cs)
    else none
  | n + 2, acc, b :: rest =>
    if 0x80 ≤ b ∧ b < 0xC0 then utf8Decode (n + 1) (acc * 64 + (b - 0x80)) rest
    else none

/-- Decode a percent-encoded parameter value. -/
def pctDecode (cs : List Char) : Option String :=
  (pctBytes none cs).bind
    (fun bs => (utf8Decode 0 0 bs).map (fun chars => String.mk chars))

/-- A parameter-name character as seen by the parser: a token character
other than the `*` extended-syntax marker. -/
def nameChar (c : Char) : Bool := tokenChar c && !(decide (c = '*'))

/-- Parse the `;name=value` parameter list, inverting the three emission
forms.  Fueled: every iteration consumes at least the leading `;`. -/
def parseParams : Nat → List Char → Option (List (String × String))
  | _, [] => some []
  | 0, _ => none
  | fuel + 1, c :: rest =>
    if c = ';' then
      let name := rest.takeWhile nameChar
      let r1 := rest.dropWhile nameChar
      if name.isEmpty then none
      else
        match r1 with
        | [] => none
        | a :: r1a =>
          if a = '*' then
            match r1a with
            | [] => none
            | b :: r2 =>
              if b = '=' then
                if r2.take 6 = utf8Tag.data then
                  let venc := (r2.drop 6).takeWhile (fun d => !(decide (d = ';')))
                  let r4 := (r2.drop 6).dropWhile (fun d => !(decide (d = ';')))
                  match pctDecode venc with
                  | some v =>
                    match parseParams fuel r4 with
                    | some ps => some ((⟨name⟩, v) :: ps)
                    | none => none
                  | none => none
                else none
              else none
          else if a = '=' then
            match r1a with
            | [] => none
            | b :: r2b =>
              if b = '"' then
                match scanQuoted false r2b with
                | some (v, r4) =>
                  match parseParams fuel r4 with
                  | some ps => some ((⟨name⟩, ⟨v⟩) :: ps)
                  | none => none
                | none => none
              else
                let v := r1a.takeWhile tokenChar
                let r4 := r1a.dropWhile tokenChar
                if v.isEmpty then none
                else
                  match parseParams fuel r4 with
                  | some ps => some ((⟨name⟩, ⟨v⟩) :: ps)
                  | none => none
          else none
    else none

/-- Modelled from the spec: parsing the assembled media-type text back into
a structured value (`"...".parse::<mime::Mime>()`). -/
def parse_mime (s : String) : Option Mime :=
  let cs := s.data
  let ty := cs.takeWhile tokenChar
  match cs.dropWhile tokenChar with
  | '/' :: r1 =>
    let sub := r1.takeWhile tokenChar
    let r2 := r1.dropWhile tokenChar
    if ty.isEmpty || sub.isEmpty then none
    else
      match parseParams cs.length r2 with
      | some ps => some ⟨⟨ty⟩, ⟨sub⟩, ps⟩
      | none => none
  | _ => none

/-- Message of the `expect` at mime_tools.rs:81. -/
def mimeBugMsg : String := "[BUG] mime generator generated invalid mime"

/-- `create_mime` (mime_tools.rs:69-82): validate type and subtype as
tokens, assemble `type/subtype` plus the encoded parameters, and re-parse
the assembled text; a parse failure is a fatal abort, not an error. -/
def create_mime (ty subty : String) (params : List (String × String))
    (mt : MailType) : EncodeResult Mime :=
  if !(is_token ty) then EncodeResult.err (ComponentError.InvalidToken ty)
  else if !(is_token subty) then
    EncodeResult.err (ComponentError.InvalidToken subty)
  else
    match create_mime_parameters params (ty ++ "/" ++ subty) mt with
    | (s2, EncodeResult.ok ()) =>
      match parse_mime s2 with
      | some m => EncodeResult.ok m
      | none => EncodeResult.panic mimeBugMsg
    | (_, EncodeResult.err e) => EncodeResult.err e
    | (_, EncodeResult.panic m) => EncodeResult.panic m

example :
    parse_mime "text/plain" = some ⟨"text", "plain", []⟩ := by decide

example :
    parse_mime "text/wtf;charset=utf8;random=alot"
      = some ⟨"text", "wtf", [("charset", "utf8"), ("random", "alot")]⟩ := by
  decide

example :
    parse_mime "x/y;time=\"unknown ü\\\"\";brain=missing"
      = some ⟨"x", "y", [("time", "unknown ü\""), ("brain", "missing")]⟩ := by
  decide

example :
    parse_mime "x/y;time*=utf8''unknown%20%C3%BC%22"
      = some ⟨"x", "y", [("time", "unknown ü\"")]⟩ := by decide

example :
    create_mime "x" "y" [("filename", "u\x01\x02ps")] MailType.Ascii
      = EncodeResult.ok ⟨"x", "y", [("filename", "u\x01\x02ps")]⟩ := by decide

/-! ## Decoder / encoder round-trip lemmas -/

theorem string_mk_data (s : String) : String.mk s.data = s := by
  cases s
  rfl

theorem char_toNat_lt (c : Char) : c.toNat < 1114112 := by
  have h := c.valid
  rcases h with h | ⟨_, h2⟩
  · unfold Char.toNat
    omega
  · unfold Char.toNat
    omega

theorem utf8Bytes_lt {n : Nat} (hn : n < 1114112) :
    ∀ b ∈ utf8Bytes n, b < 256 := by
  intro b hb
  unfold utf8Bytes at hb
  split_ifs at hb with h1 h2 h3 <;>
    simp only [List.mem_cons, List.mem_singleton, List.not_mem_nil,
      or_false] at hb
  · subst hb
    omega
  · rcases hb with rfl | rfl <;> omega
  · rcases hb with rfl | rfl | rfl <;> omega
  · rcases hb with rfl | rfl | rfl | rfl <;> omega

theorem utf8Decode_prepend (c : Char) (bs : List Nat) :
    utf8Decode 0 0 (utf8Bytes c.toNat ++ bs)
      = (utf8Decode 0 0 bs).map (fun cs => c :: cs) := by
  have hlt := char_toNat_lt c
  by_cases h1 : c.toNat < 0x80
  · rw [show utf8Bytes c.toNat = [c.toNat] from by
      unfold utf8Bytes; rw [if_pos h1]]
    show utf8Decode 0 0 (c.toNat :: bs) = _
    rw [utf8Decode, if_pos h1, Char.ofNat_toNat]
  · by_cases h2 : c.toNat < 0x800
    · rw [show utf8Bytes c.toNat
          = [0xC0 + c.toNat / 64, 0x80 + c.toNat % 64] from by
        unfold utf8Bytes; rw [if_neg h1, if_pos h2]]
      show utf8Decode 0 0
        ((0xC0 + c.toNat / 64) :: (0x80 + c.toNat % 64) :: bs) = _
      rw [utf8Decode, if_neg (by omega), if_neg (by omega), if_pos (by omega),
        utf8Decode, if_pos (by omega),
        show (0xC0 + c.toNat / 64 - 0xC0) * 64 + (0x80 + c.toNat % 64 - 0x80)
          = c.toNat from by omega, Char.ofNat_toNat]
    · by_cases h3 : c.toNat < 0x10000
      · rw [show utf8Bytes c.toNat = [0xE0 + c.toNat / 4096,
            0x80 + (c.toNat / 64) % 64, 0x80 + c.toNat % 64] from by
          unfold utf8Bytes; rw [if_neg h1, if_neg h2, if_pos h3]]
        show utf8Decode 0 0 ((0xE0 + c.toNat / 4096) ::
          (0x80 + (c.toNat / 64) % 64) :: (0x80 + c.toNat % 64) :: bs) = _
        rw [utf8Decode, if_neg (by omega), if_neg (by omega),
          if_neg (by omega), if_pos (by omega)]
        rw [show (2 : Nat) = 0 + 2 from rfl, utf8Decode, if_pos (by omega)]
        rw [show (0 : Nat) + 1 = 1 from rfl, utf8Decode, if_pos (by omega)]
        rw [show ((0xE0 + c.toNat / 4096 - 0xE0) * 64 +
              (0x80 + (c.toNat / 64) % 64 - 0x80)) * 64 +
              (0x80 + c.toNat % 64 - 0x80) = c.toNat from by omega,
          Char.ofNat_toNat]
      · rw [show utf8Bytes c.toNat = [0xF0 + c.toNat / 262144,
            0x80 + (c.toNat / 4096) % 64, 0x80 + (c.toNat / 64) % 64,
            0x80 + c.toNat % 64] from by
          unfold utf8Bytes; rw [if_neg h1, if_neg h2, if_neg h3]]
        show utf8Decode 0 0 ((0xF0 + c.toNat / 262144) ::
          (0x80 + (c.toNat / 4096) % 64) :: (0x80 + (c.toNat / 64) % 64) ::
          (0x80 + c.toNat % 64) :: bs) = _
        rw [utf8Decode, if_neg (by omega), if_neg (by omega),
          if_neg (by omega), if_neg (by omega), if_pos (by omega)]
        rw [show (3 : Nat) = 1 + 2 from rfl, utf8Decode, if_pos (by omega)]
        rw [show (1 : Nat) + 1 = 0 + 2 from rfl, utf8Decode, if_pos (by omega)]
        rw [show (0 : Nat) + 1 = 1 from rfl, utf8Decode, if_pos (by omega)]
        rw [show (((0xF0 + c.toNat / 262144 - 0xF0) * 64 +
              (0x80 + (c.toNat / 4096) % 64 - 0x80)) * 64 +
              (0x80 + (c.toNat / 64) % 64 - 0x80)) * 64 +
              (0x80 + c.toNat % 64 - 0x80) = c.toNat from by omega,
          Char.ofNat_toNat]

theorem utf8Decode_flat (cs : List Char) :
    utf8Decode 0 0 (cs.flatMap fun c => utf8Bytes c.toNat) = some cs := by
  induction cs with
  | nil => rfl
  | cons c rest ih =>
    rw [List.flatMap_cons, utf8Decode_prepend, ih]
    rfl

theorem hexVal_hexDigit : ∀ n, n < 16 → hexVal (hexDigit n) = some n := by
  decide

theorem pctBytes_pctByte (b : Nat) (hb : b < 256) (l : List Char) :
    pctBytes none (pctByte b ++ l)
      = (pctBytes none l).map (fun bs => b :: bs) := by
  show pctBytes none ('%' :: hexDigit (b / 16) :: hexDigit (b % 16) :: l) = _
  rw [pctBytes, if_pos rfl, pctBytes, hexVal_hexDigit (b / 16) (by omega)]
  show pctBytes (some (some (b / 16))) (hexDigit (b % 16) :: l) = _
  rw [pctBytes, hexVal_hexDigit (b % 16) (by omega)]
  show (pctBytes none l).map (fun bs => (16 * (b / 16) + b % 16) :: bs) = _
  rw [show 16 * (b / 16) + b % 16 = b from by omega]

theorem pctBytes_chunk (c : Char) (l : List Char) :
    pctBytes none (pctChunk c ++ l)
      = (pctBytes none l).map (fun bs => utf8Bytes c.toNat ++ bs) := by
  unfold pctChunk
  by_cases ha : attrChar c = true
  · rw [if_pos ha]
    have h1 : c.toNat < 128 := by
      have := attrChar_range ha
      omega
    have h2 : ¬ c = '%' := by
      intro he
      subst he
      exact absurd ha (by decide)
    have hbytes : utf8Bytes c.toNat = [c.toNat] := by
      unfold utf8Bytes
      rw [if_pos (by omega)]
    show pctBytes none (c :: l) = _
    rw [pctBytes, if_neg h2, if_pos h1, hbytes]
    cases h : pctBytes none l with
    | some bs => rfl
    | none => rfl
  · rw [if_neg ha]
    have hlt := char_toNat_lt c
    have main : ∀ (bs : List Nat), (∀ b ∈ bs, b < 256) → ∀ (l2 : List Char),
        pctBytes none (bs.flatMap pctByte ++ l2)
          = (pctBytes none l2).map (fun t => bs ++ t) := by
      intro bs
      induction bs with
      | nil =>
        intro _ l2
        show pctBytes none l2 = _
        cases h : pctBytes none l2 with
        | some t => rfl
        | none => rfl
      | cons b rest ih =>
        intro hb l2
        rw [List.flatMap_cons, List.append_assoc,
          pctBytes_pctByte b (hb b (List.mem_cons_self _ _)),
          ih (fun x hx => hb x (List.mem_cons_of_mem _ hx)) l2]
        cases h : pctBytes none l2 with
        | some t => rfl
        | none => rfl
    exact main _ (utf8Bytes_lt hlt) l

theorem pctBytes_encode_all (cs : List Char) (l : List Char) :
    pctBytes none (cs.flatMap pctChunk ++ l)
      = (pctBytes none l).map
          (fun t => cs.flatMap (fun c => utf8Bytes c.toNat) ++ t) := by
  induction cs with
  | nil =>
    show pctBytes none l = _
    cases h : pctBytes none l with
    | some t => rfl
    | none => rfl
  | cons c rest ih =>
    rw [List.flatMap_cons, List.append_assoc, pctBytes_chunk, ih]
    cases h : pctBytes none l with
    | some t => simp [List.append_assoc]
    | none => rfl

/-- Percent-decoding inverts percent-encoding. -/
theorem pctEncode_decode (v : String) :
    pctDecode ((pctEncode v).data) = some v := by
  unfold pctDecode
  have hb : pctBytes none ((pctEncode v).data)
      = some (v.data.flatMap fun c => utf8Bytes c.toNat) := by
    have h := pctBytes_encode_all v.data []
    rw [List.append_nil] at h
    rw [show (pctEncode v).data = v.data.flatMap pctChunk from rfl, h]
    show some ((v.data.flatMap fun c => utf8Bytes c.toNat) ++ []) = _
    rw [List.append_nil]
  rw [hb]
  show (utf8Decode 0 0 (v.data.flatMap fun c => utf8Bytes c.toNat)).map
    (fun chars => String.mk chars) = some v
  rw [utf8Decode_flat]
  show some (String.mk v.data) = some v
  rw [string_mk_data]

/-- Scanning the escaped body of a quoted string recovers the original. -/
theorem scanQuoted_escape :
    ∀ (v : List Char) (r : List Char),
    scanQuoted false (v.flatMap escChar ++ '"' :: r) = some (v, r) := by
  intro v
  induction v with
  | nil =>
    intro r
    show scanQuoted false ('"' :: r) = _
    rw [scanQuoted, if_pos rfl]
  | cons c v2 ih =>
    intro r
    rw [List.flatMap_cons, List.append_assoc]
    unfold escChar
    by_cases h1 : c = '"'
    · rw [if_pos (by rw [h1]; simp)]
      show scanQuoted false ('\\' :: c :: (v2.flatMap escChar ++ '"' :: r)) = _
      rw [scanQuoted, if_neg (by decide), if_pos rfl, scanQuoted, ih]
      rfl
    · by_cases h2 : c = '\\'
      · rw [if_pos (by rw [h2]; simp)]
        show scanQuoted false ('\\' :: c :: (v2.flatMap escChar ++ '"' :: r)) = _
        rw [scanQuoted, if_neg (by decide), if_pos rfl, scanQuoted, ih]
        rfl
      · rw [if_neg (by simp [h1, h2])]
        show scanQuoted false (c :: (v2.flatMap escChar ++ '"' :: r)) = _
        rw [scanQuoted, if_neg h1, if_neg h2, ih]
        rfl

/-- `takeWhile` / `dropWhile` split an append exactly at the boundary. -/
theorem span_boundary {α : Type} (p : α → Bool) :
    ∀ (l r : List α), (∀ c ∈ l, p c = true) →
    (∀ c, r.head? = some c → p c = false) →
    (l ++ r).takeWhile p = l ∧ (l ++ r).dropWhile p = r := by
  intro l
  induction l with
  | nil =>
    intro r _ hr
    cases r with
    | nil => simp
    | cons d r2 =>
      have hd : p d = false := hr d rfl
      simp [List.takeWhile_cons, List.dropWhile_cons, hd]
  | cons a l2 ih =>
    intro r hl hr
    have ha : p a = true := hl a (List.mem_cons_self _ _)
    have h2 := ih r (fun c hc => hl c (List.mem_cons_of_mem _ hc)) hr
    simp [List.takeWhile_cons, List.dropWhile_cons, ha, h2.1, h2.2]

/-! ## Parsing the emitted text -/

theorem data_mk (l : List Char) : (String.mk l).data = l := rfl

theorem data_empty : ("" : String).data = [] := rfl

theorem semi_data : (";" : String).data = [';'] := rfl

theorem eqsign_data : ("=" : String).data = ['='] := rfl

theorem stareq_data : ("*=" : String).data = ['*', '='] := rfl

theorem slash_data : ("/" : String).data = ['/'] := rfl

theorem head_cons_eq {α : Type} {a c : α} {l : List α}
    (h : (a :: l).head? = some c) : c = a := by
  simp at h
  exact h.symm

/-- Wire shape of a raw-token segment. -/
theorem segChars_raw (tp : MailType) (name value : String) (tail : List Char)
    (hv : is_token value = true) :
    (segmentOf tp name value).data ++ tail
      = ';' :: (name.data ++ '=' :: (value.data ++ tail)) := by
  unfold segmentOf quote_if_needed
  rw [if_pos hv]
  show ((";" ++ name ++ "=" ++ value)).data ++ tail = _
  simp [String.data_append, semi_data, eqsign_data, List.append_assoc]

/-- Wire shape of a quoted segment. -/
theorem segChars_quoted (tp : MailType) (name value : String)
    (tail : List Char) (hv : is_token value = false)
    (hq : value.data.all (quotable tp) = true) :
    (segmentOf tp name value).data ++ tail
      = ';' :: (name.data ++ '=' :: '"' ::
          (value.data.flatMap escChar ++ '"' :: tail)) := by
  unfold segmentOf quote_if_needed
  rw [if_neg (by simp [hv]), if_pos hq]
  show ((";" ++ name ++ "=" ++ quoteStr value)).data ++ tail = _
  simp [String.data_append, semi_data, eqsign_data, quoteStr, data_mk,
    List.append_assoc]

/-- Wire shape of a percent-encoded extended segment. -/
theorem segChars_pct (tp : MailType) (name value : String) (tail : List Char)
    (hnr : quote_if_needed value tp = QuoteResult.notRepresentable) :
    (segmentOf tp name value).data ++ tail
      = ';' :: (name.data ++ '*' :: '=' ::
          (utf8Tag.data ++ ((pctEncode value).data ++ tail))) := by
  unfold segmentOf
  rw [hnr]
  show ((";" ++ name ++ "*=" ++ utf8Tag ++ pctEncode value)).data ++ tail = _
  simp [String.data_append, semi_data, stareq_data, List.append_assoc]

/-- The emitted parameter text is empty or starts with `;`. -/
theorem segs_head (tp : MailType) (params : List (String × String)) :
    ∀ c, (sjoin (params.map fun p => segmentOf tp p.1 p.2)).data.head?
        = some c → c = ';' := by
  cases params with
  | nil =>
    intro c h
    simp [sjoin, data_empty] at h
  | cons q rest =>
    intro c h
    obtain ⟨s, hs⟩ := segment_starts_semi tp q.1 q.2
    rw [show sjoin ((q :: rest).map fun p => segmentOf tp p.1 p.2)
        = segmentOf tp q.1 q.2
          ++ sjoin (rest.map fun p => segmentOf tp p.1 p.2) from rfl,
      hs, String.data_append, String.data_append, semi_data] at h
    simp only [List.cons_append, List.nil_append, List.head?_cons] at h
    exact (Option.some.inj h).symm

/-- At least one character is emitted per parameter. -/
theorem segs_length (tp : MailType) :
    ∀ (params : List (String × String)),
    params.length ≤ (sjoin (params.map fun p => segmentOf tp p.1 p.2)).data.length := by
  intro params
  induction params with
  | nil => simp [sjoin, data_empty]
  | cons q rest ih =>
    obtain ⟨s, hs⟩ := segment_starts_semi tp q.1 q.2
    rw [show sjoin ((q :: rest).map fun p => segmentOf tp p.1 p.2)
        = segmentOf tp q.1 q.2
          ++ sjoin (rest.map fun p => segmentOf tp p.1 p.2) from rfl,
      hs, String.data_append, String.data_append, semi_data]
    simp only [List.cons_append, List.nil_append, List.length_cons,
      List.length_append, List.length_cons]
    omega

/-- Parsing the emitted parameter text recovers the parameter list, for any
sufficient fuel, provided every name is a token free of the `*` marker. -/
theorem parseParams_segs (tp : MailType) :
    ∀ (params : List (String × String)),
    (∀ p ∈ params, is_token p.1 = true ∧ '*' ∉ p.1.data) →
    ∀ fuel, params.length ≤ fuel →
    parseParams fuel (sjoin (params.map fun p => segmentOf tp p.1 p.2)).data
      = some params := by
  intro params
  induction params with
  | nil =>
    intro _ fuel _
    show parseParams fuel [] = some []
    cases fuel <;> rfl
  | cons q rest ih =>
    intro hp fuel hfuel
    obtain ⟨name, value⟩ := q
    have hname : is_token name = true := (hp _ (List.mem_cons_self _ _)).1
    have hstar : '*' ∉ name.data := (hp _ (List.mem_cons_self _ _)).2
    have hrest : ∀ p ∈ rest, is_token p.1 = true ∧ '*' ∉ p.1.data :=
      fun p h => hp p (List.mem_cons_of_mem _ h)
    cases fuel with
    | zero => exact absurd hfuel (by simp)
    | succ f =>
      have hf : rest.length ≤ f := by
        simpa using hfuel
      have hparse : parseParams f
          (sjoin (rest.map fun p => segmentOf tp p.1 p.2)).data = some rest :=
        ih hrest f hf
      have htails : ∀ c,
          (sjoin (rest.map fun p => segmentOf tp p.1 p.2)).data.head?
            = some c → c = ';' := segs_head tp rest
      have hjoin : (sjoin (((name, value) :: rest).map
            fun p => segmentOf tp p.1 p.2)).data
          = (segmentOf tp name value).data
            ++ (sjoin (rest.map fun p => segmentOf tp p.1 p.2)).data := by
        rw [show sjoin (((name, value) :: rest).map
              fun p => segmentOf tp p.1 p.2)
            = segmentOf tp name value
              ++ sjoin (rest.map fun p => segmentOf tp p.1 p.2) from rfl,
          String.data_append]
      rw [hjoin]
      have hnc : ∀ c ∈ name.data, nameChar c = true := by
        intro c hc
        have ht := is_token_all hname c hc
        have hne : ¬ c = '*' := fun he => hstar (he ▸ hc)
        simp [nameChar, ht, hne]
      have hnameNE : name.data.isEmpty = false := by
        cases hnil : name.data with
        | nil => exact absurd hnil (is_token_ne_nil hname)
        | cons a b => rfl
      by_cases hvtok : is_token value = true
      · -- raw token value
        rw [segChars_raw tp name value _ hvtok]
        obtain ⟨vc, vrest, hvd⟩ : ∃ vc vrest, value.data = vc :: vrest := by
          cases hnil : value.data with
          | nil => exact absurd hnil (is_token_ne_nil hvtok)
          | cons a b => exact ⟨a, b, rfl⟩
        have hvall : ∀ c ∈ value.data, tokenChar c = true := is_token_all hvtok
        rw [hvd, List.cons_append]
        have hspan := span_boundary nameChar name.data
          ('=' :: vc :: (vrest
            ++ (sjoin (rest.map fun p => segmentOf tp p.1 p.2)).data)) hnc
          (fun c h => by rw [head_cons_eq h]; decide)
        have hvspan0 := span_boundary tokenChar (vc :: vrest)
          (sjoin (rest.map fun p => segmentOf tp p.1 p.2)).data
          (by intro c hc; exact hvall c (by rw [hvd]; exact hc))
          (fun c h => by rw [htails c h]; decide)
        have hvspan : (vc :: (vrest
              ++ (sjoin (rest.map fun p => segmentOf tp p.1 p.2)).data)).takeWhile
              tokenChar = vc :: vrest
            ∧ (vc :: (vrest
              ++ (sjoin (rest.map fun p => segmentOf tp p.1 p.2)).data)).dropWhile
              tokenChar
              = (sjoin (rest.map fun p => segmentOf tp p.1 p.2)).data := by
          simpa [List.cons_append] using hvspan0
        have hvhead : ¬ vc = '"' := by
          intro he
          have h2 := hvall vc (by rw [hvd]; exact List.mem_cons_self _ _)
          rw [he] at h2
          exact absurd h2 (by decide)
        have hv2 : String.mk (vc :: vrest) = value := by
          rw [← hvd]
        simp [parseParams, hspan.1, hspan.2, hnameNE, hvspan.1, hvspan.2,
          hvhead, hparse, hv2, string_mk_data]
      · have hvf : is_token value = false := by
          cases hb : is_token value with
          | true => exact absurd hb hvtok
          | false => rfl
        by_cases hq : value.data.all (quotable tp) = true
        · -- quoted value
          rw [segChars_quoted tp name value _ hvf hq]
          have hspan := span_boundary nameChar name.data
            ('=' :: '"' :: (value.data.flatMap escChar ++ '"' ::
              (sjoin (rest.map fun p => segmentOf tp p.1 p.2)).data)) hnc
            (fun c h => by rw [head_cons_eq h]; decide)
          simp [parseParams, hspan.1, hspan.2, hnameNE, scanQuoted_escape,
            hparse, string_mk_data]
        · -- percent-encoded value
          have hqf : value.data.all (quotable tp) = false := by
            cases hb : value.data.all (quotable tp) with
            | true => exact absurd hb hq
            | false => rfl
          have hnr : quote_if_needed value tp
              = QuoteResult.notRepresentable := by
            unfold quote_if_needed
            rw [if_neg (by simp [hvf]), if_neg (by simp [hqf])]
          rw [segChars_pct tp name value _ hnr]
          have hspan := span_boundary nameChar name.data
            ('*' :: '=' :: (utf8Tag.data ++ ((pctEncode value).data
              ++ (sjoin (rest.map fun p => segmentOf tp p.1 p.2)).data))) hnc
            (fun c h => by rw [head_cons_eq h]; decide)
          have htake : (utf8Tag.data ++ ((pctEncode value).data
                ++ (sjoin (rest.map fun p => segmentOf tp p.1 p.2)).data)).take 6
              = utf8Tag.data := List.take_left' (by decide)
          have hdrop : (utf8Tag.data ++ ((pctEncode value).data
                ++ (sjoin (rest.map fun p => segmentOf tp p.1 p.2)).data)).drop 6
              = (pctEncode value).data
                ++ (sjoin (rest.map fun p => segmentOf tp p.1 p.2)).data :=
            List.drop_left' (by decide)
          have hpspan := span_boundary (fun d => !(decide (d = ';')))
            ((pctEncode value).data)
            (sjoin (rest.map fun p => segmentOf tp p.1 p.2)).data
            (by
              intro c hc
              have := pctEncode_no_semi hc
              simp [this])
            (fun c h => by rw [htails c h]; simp)
          simp [parseParams, hspan.1, hspan.2, hnameNE, htake, hdrop,
            hpspan.1, hpspan.2, pctEncode_decode, hparse, string_mk_data]

/-- Parsing the full assembled media-type text recovers type, subtype and
parameters. -/
theorem parse_mime_emitted (tp : MailType) (ty subty : String)
    (params : List (String × String))
    (hty : is_token ty = true) (hsub : is_token subty = true)
    (hparams : ∀ p ∈ params, is_token p.1 = true ∧ '*' ∉ p.1.data) :
    parse_mime ((ty ++ "/" ++ subty)
        ++ sjoin (params.map fun p => segmentOf tp p.1 p.2))
      = some ⟨ty, subty, params⟩ := by
  have hcs : ((ty ++ "/" ++ subty)
        ++ sjoin (params.map fun p => segmentOf tp p.1 p.2)).data
      = ty.data ++ '/' :: (subty.data
        ++ (sjoin (params.map fun p => segmentOf tp p.1 p.2)).data) := by
    simp [String.data_append, slash_data, List.append_assoc]
  have hspanT := span_boundary tokenChar ty.data
    ('/' :: (subty.data
      ++ (sjoin (params.map fun p => segmentOf tp p.1 p.2)).data))
    (is_token_all hty) (fun c h => by rw [head_cons_eq h]; decide)
  have hspanS := span_boundary tokenChar subty.data
    (sjoin (params.map fun p => segmentOf tp p.1 p.2)).data
    (is_token_all hsub)
    (fun c h => by rw [segs_head tp params c h]; decide)
  have htyNE : ty.data.isEmpty = false := by
    cases hnil : ty.data with
    | nil => exact absurd hnil (is_token_ne_nil hty)
    | cons a b => rfl
  have hsubNE : subty.data.isEmpty = false := by
    cases hnil : subty.data with
    | nil => exact absurd hnil (is_token_ne_nil hsub)
    | cons a b => rfl
  have hlen : params.length ≤ (ty.data ++ '/' :: (subty.data
      ++ (sjoin (params.map fun p => segmentOf tp p.1 p.2)).data)).length := by
    have h := segs_length tp params
    simp only [List.length_append, List.length_cons]
    omega
  have hppU := parseParams_segs tp params hparams
  simp only [parse_mime, hcs, hspanT.1, hspanT.2, hspanS.1, hspanS.2, htyNE,
    hsubNE, Bool.or_self, Bool.false_eq_true, if_false]
  rw [hppU _ hlen, string_mk_data, string_mk_data]

/-- C7 (amended): for type and subtype valid tokens and parameter names
valid tokens containing no `*`, `create_mime` succeeds and the value parsed
back from the assembled text equals the encoded (type, subtype, parameter
list); values are unrestricted. -/
theorem create_mime_roundtrip (ty subty : String)
    (params : List (String × String)) (tp : MailType)
    (hty : is_token ty = true) (hsub : is_token subty = true)
    (hparams : ∀ p ∈ params, is_token p.1 = true ∧ '*' ∉ p.1.data) :
    create_mime ty subty params tp
      = EncodeResult.ok ⟨ty, subty, params⟩ := by
  unfold create_mime
  rw [if_neg (by simp [hty]), if_neg (by simp [hsub])]
  rw [mime_params_ok tp params (ty ++ "/" ++ subty)
    (fun p h => (hparams p h).1)]
  show (match parse_mime ((ty ++ "/" ++ subty)
      ++ sjoin (params.map fun p => segmentOf tp p.1 p.2)) with
    | some m => EncodeResult.ok m
    | none => EncodeResult.panic mimeBugMsg) = _
  rw [parse_mime_emitted tp ty subty params hty hsub hparams]

/-- C7 witness: a round trip covering all three emission forms (raw token,
quoted value, percent-encoded value). -/
theorem create_mime_roundtrip_witness :
    is_token "text" = true ∧ is_token "plain" = true ∧
    (∀ p ∈ ([("charset", "utf-8"), ("name", "a b"), ("brk", "u\x01")]
        : List (String × String)),
      is_token p.1 = true ∧ '*' ∉ p.1.data) ∧
    create_mime "text" "plain"
        [("charset", "utf-8"), ("name", "a b"), ("brk", "u\x01")]
        MailType.Ascii
      = EncodeResult.ok ⟨"text", "plain",
          [("charset", "utf-8"), ("name", "a b"), ("brk", "u\x01")]⟩ := by
  refine ⟨by decide, by decide, by decide, ?_⟩
  exact create_mime_roundtrip _ _ _ _ (by decide) (by decide) (by decide)

/-- C7 counterexample: the round trip fails as universally stated.  The
parameter name `a*` is a valid token, and the entry `("a*", "utf8''%01")` is
emitted as exactly the same wire bytes as the percent-encoded entry
`("a", "\x01")`; re-parsing therefore cannot return a value equal to both,
and `create_mime` on `("a*", "utf8''%01")` returns the other one. -/
theorem create_mime_star_ambiguity :
    is_token "a*" = true ∧ is_token "x" = true ∧ is_token "y" = true ∧
    segmentOf MailType.Ascii "a*" "utf8''%01"
      = segmentOf MailType.Ascii "a" "\x01" ∧
    create_mime "x" "y" [("a*", "utf8''%01")] MailType.Ascii
      = EncodeResult.ok ⟨"x", "y", [("a", "\x01")]⟩ ∧
    (⟨"x", "y", [("a", "\x01")]⟩ : Mime) ≠ ⟨"x", "y", [("a*", "utf8''%01")]⟩ := by
  exact ⟨by decide, by decide, by decide, by decide, by decide, by decide⟩

/-! ## Header kind registry (embedded from `header_macro.rs`) -/

instance {ε α : Type} [DecidableEq ε] [DecidableEq α] :
    DecidableEq (Except ε α) := fun a b =>
  match a, b with
  | Except.ok x, Except.ok y =>
    if h : x = y then isTrue (by rw [h]) else isFalse (by simp [h])
  | Except.error x, Except.error y =>
    if h : x = y then isTrue (by rw [h]) else isFalse (by simp [h])
  | Except.ok _, Except.error _ => isFalse (by simp)
  | Except.error _, Except.ok _ => isFalse (by simp)

/-- One record of a `def_headers!` declaration group: the multiplicity flag
(`MAX_COUNT_EQ_1`, `1` versus `+`), the canonical name literal and whether a
contextual validator was declared. -/
structure HeaderDecl where
  maxCountEq1 : Bool
  hname : String
  hasValidator : Bool
deriving DecidableEq, Repr

/-- The generated `Header::name()` accessor: it hands out the declared
literal unchecked (`HeaderName::from_ascii_unchecked`). -/
def headerName (d : HeaderDecl) : String := d.hname

/-- The panic message of the generated duplicate check. -/
def dupPanicMsg (name : String) : String :=
  "name appears more than one time in same def_headers macro: " ++ name

/-- The panic message of the generated name validation. -/
def invalidNameMsg (name : String) : String :=
  "invalid header name: " ++ name

/-- The first loop of the generated test (header_macro.rs:110-115): walk the
declared names in order, keeping a set of the names already seen, and panic
with the offending name on the first repetition. -/
def checkDuplicateNames : List String → List String → Except String Unit
  | _, [] => Except.ok ()
  | seen, n :: rest =>
    if n ∈ seen then Except.error (dupPanicMsg n)
    else checkDuplicateNames (n :: seen) rest

/-- An ASCII upper-case letter. -/
def upperAlpha (c : Char) : Bool := 65 ≤ c.toNat && c.toNat ≤ 90

/-- An ASCII lower-case letter. -/
def lowerAlpha (c : Char) : Bool := 97 ≤ c.toNat && c.toNat ≤ 122

/-- Split a character list at every hyphen (structurally recursive). -/
def splitWords : List Char → List (List Char)
  | [] => [[]]
  | c :: rest =>
    if c = '-' then [] :: splitWords rest
    else
      match splitWords rest with
      | [] => [[c]]
      | w :: ws => (c :: w) :: ws

/-- One word of a canonical header name: a capital letter followed by
lower-case letters. -/
def validWord (w : List Char) : Bool :=
  match w with
  | [] => false
  | c :: rest => upperAlpha c && rest.all lowerAlpha

/-- Modelled from the spec: `HeaderName::validate_name` — the header-field
name grammar: ASCII, hyphen-separated words, each word capitalized then
lower-case. -/
def validate_name (s : String) : Bool :=
  (splitWords s.data).all validWord

/-- The second loop of the generated test (header_macro.rs:122-129): panic
with the offending name on the first declared name failing the grammar. -/
def checkValidNames : List String → Except String Unit
  | [] => Except.ok ()
  | n :: rest =>
    if validate_name n then checkValidNames rest
    else Except.error (invalidNameMsg n)

/-- The whole generated self-check of a declaration group: the duplicate
check over the declared names, then the name-grammar check. -/
def selfCheck (decls : List HeaderDecl) : Except String Unit :=
  match checkDuplicateNames [] (decls.map headerName) with
  | Except.ok () => checkValidNames (decls.map headerName)
  | Except.error e => Except.error e

theorem checkDuplicateNames_ok :
    ∀ (names seen : List String), names.Nodup →
    (∀ n ∈ names, n ∉ seen) →
    checkDuplicateNames seen names = Except.ok () := by
  intro names
  induction names with
  | nil => intro seen _ _; rfl
  | cons n rest ih =>
    intro seen hnd hdisj
    rw [checkDuplicateNames, if_neg (hdisj n (List.mem_cons_self _ _))]
    refine ih (n :: seen) (List.Nodup.of_cons hnd) ?_
    intro m hm
    rw [List.mem_cons]
    rintro (rfl | hseen)
    · exact (List.nodup_cons.mp hnd).1 hm
    · exact hdisj m (List.mem_cons_of_mem _ hm) hseen

theorem checkDuplicateNames_err :
    ∀ (names seen : List String),
    (¬ names.Nodup ∨ ∃ n ∈ names, n ∈ seen) →
    ∃ d, (1 < names.count d ∨ (d ∈ names ∧ d ∈ seen)) ∧
      checkDuplicateNames seen names = Except.error (dupPanicMsg d) := by
  intro names
  induction names with
  | nil =>
    intro seen h
    rcases h with h | ⟨n, hn, _⟩
    · exact absurd List.nodup_nil h
    · cases hn
  | cons n rest ih =>
    intro seen h
    by_cases hseen : n ∈ seen
    · refine ⟨n, Or.inr ⟨List.mem_cons_self _ _, hseen⟩, ?_⟩
      rw [checkDuplicateNames, if_pos hseen]
    · have hrec : ¬ rest.Nodup ∨ ∃ m ∈ rest, m ∈ n :: seen := by
        rcases h with hnd | ⟨m, hm, hmseen⟩
        · rw [List.nodup_cons] at hnd
          push_neg at hnd
          by_cases hmem : n ∈ rest
          · exact Or.inr ⟨n, hmem, List.mem_cons_self _ _⟩
          · exact Or.inl (hnd hmem)
        · rcases List.mem_cons.mp hm with rfl | hm2
          · exact absurd hmseen hseen
          · exact Or.inr ⟨m, hm2, List.mem_cons_of_mem _ hmseen⟩
      obtain ⟨d, hd, heq⟩ := ih (n :: seen) hrec
      refine ⟨d, ?_, ?_⟩
      · rcases hd with hcount | ⟨hdin, hdseen⟩
        · left
          rw [List.count_cons]
          split_ifs <;> omega
        · rcases List.mem_cons.mp hdseen with rfl | hdseen2
          · left
            have h1 : 0 < rest.count d := List.count_pos_iff.mpr hdin
            rw [List.count_cons]
            split_ifs with hb
            · omega
            · exact absurd (beq_self_eq_true d) hb
          · exact Or.inr ⟨List.mem_cons_of_mem _ hdin, hdseen2⟩
      · rw [checkDuplicateNames, if_neg hseen]
        exact heq

theorem checkValidNames_ok_all :
    ∀ (names : List String), checkValidNames names = Except.ok () →
    ∀ n ∈ names, validate_name n = true := by
  intro names
  induction names with
  | nil => intro _ n hn; cases hn
  | cons n rest ih =>
    intro h m hm
    rw [checkValidNames] at h
    by_cases hv : validate_name n = true
    · rw [if_pos hv] at h
      rcases List.mem_cons.mp hm with rfl | hm2
      · exact hv
      · exact ih h m hm2
    · rw [if_neg hv] at h
      cases h

/-! ## Claims C8 and C9 -/

/-- C8: a declaration group with two records carrying the same canonical
name makes the generated self-check fail with a panic message naming a
duplicated name; a group with pairwise-distinct names passes the duplicate
part of the check. -/
theorem def_headers_duplicate_check (names : List String) :
    (names.Nodup → checkDuplicateNames [] names = Except.ok ()) ∧
    (¬ names.Nodup → ∃ d, 1 < names.count d ∧
      checkDuplicateNames [] names = Except.error (dupPanicMsg d)) := by
  constructor
  · intro hnd
    exact checkDuplicateNames_ok names [] hnd (by simp)
  · intro hnd
    obtain ⟨d, hd, heq⟩ := checkDuplicateNames_err names [] (Or.inl hnd)
    rcases hd with hcount | ⟨_, hdseen⟩
    · exact ⟨d, hcount, heq⟩
    · cases hdseen

/-- C8 witness: `Date` declared twice is caught and named; the duplicate-free
group `Date`, `From` passes. -/
theorem def_headers_duplicate_check_witness :
    (¬ (["Date", "From", "Date"] : List String).Nodup ∧
      ∃ d, 1 < (["Date", "From", "Date"] : List String).count d ∧
        checkDuplicateNames [] ["Date", "From", "Date"]
          = Except.error (dupPanicMsg d)) ∧
    ((["Date", "From"] : List String).Nodup ∧
      checkDuplicateNames [] ["Date", "From"] = Except.ok ()) := by
  refine ⟨⟨by decide, ?_⟩, ⟨by decide, ?_⟩⟩
  · exact (def_headers_duplicate_check ["Date", "From", "Date"]).2 (by decide)
  · exact (def_headers_duplicate_check ["Date", "From"]).1 (by decide)

/-- C9: once a declaration group's generated self-check passes, the
canonical name exposed by every generated header kind's `name()` accessor
satisfies the header-field-name grammar. -/
theorem def_headers_names_validated (decls : List HeaderDecl)
    (h : selfCheck decls = Except.ok ()) :
    ∀ d ∈ decls, validate_name (headerName d) = true := by
  intro d hd
  unfold selfCheck at h
  cases hdup : checkDuplicateNames [] (decls.map headerName) with
  | ok u =>
    cases u
    rw [hdup] at h
    exact checkValidNames_ok_all _ h (headerName d)
      (List.mem_map_of_mem _ hd)
  | error e =>
    rw [hdup] at h
    cases h

/-- C9 witness: a well-formed group (`Message-Id`, `Comments`) passes the
self-check and its exposed names satisfy the grammar. -/
theorem def_headers_names_validated_witness :
    selfCheck [⟨true, "Message-Id", false⟩, ⟨false, "Comments", true⟩]
      = Except.ok () ∧
    ∀ d ∈ ([⟨true, "Message-Id", false⟩, ⟨false, "Comments", true⟩]
        : List HeaderDecl), validate_name (headerName d) = true := by
  refine ⟨by decide, ?_⟩
  exact def_headers_names_validated _ (by decide)

end MailCodec
